import Mathlib

/-!
# URL shortener: shallow embedding and verification

Shallow embedding of a small FastAPI + sqlite URL-shortening service
(`src/main.py`, `src/api.py`, `src/models.py`) and proofs about it.

The sqlite table (models.py, init_db) is

  CREATE TABLE IF NOT EXISTS URLS(
    ID INTEGER PRIMARY KEY AUTOINCREMENT,
    URL TEXT NOT NULL,
    SHORT_URL TEXT NOT NULL,
    CREATED_AT TIMESTAMP DEFAULT CURRENT_TIMESTAMP)

modelled as a list of rows kept in rowid (insertion) order together with the
AUTOINCREMENT counter.  `CURRENT_TIMESTAMP` is modelled by an explicit `now`
argument to insertion (sqlite stamps wall-clock time with one-second
resolution, so consecutive inserts may receive equal timestamps).  A plain
`SELECT ... WHERE` without `ORDER BY` scans the table in rowid order, so
`fetchone` yields the matching row with the smallest rowid;
`ORDER BY CREATED_AT DESC` is modelled as a stable descending sort on
`created_at` (rows with equal keys stay in scan order).
-/

namespace UrlShortener

/-- One row of the URLS table. -/
structure UrlRecord where
  id : Nat
  url : String
  short_url : String
  created_at : Nat
deriving DecidableEq, Repr, Inhabited

/-- The sqlite database: rows in rowid order plus the AUTOINCREMENT counter. -/
structure DB where
  rows : List UrlRecord
  nextId : Nat
deriving DecidableEq, Repr

/-- The empty database produced by `init_db` on a fresh file. -/
def init_db : DB := { rows := [], nextId := 1 }

/-- The SQL statements issued by models.py. -/
inductive Stmt where
  | insertUrl (url short_url : String) (now : Nat)
  | selectWhere (short_url : String)
  | deleteWhere (short_url : String)
  | selectAllOrdered
deriving DecidableEq, Repr

/-- The comparison realised by `ORDER BY CREATED_AT DESC`: `a` may come
before `b` when `a`'s timestamp is not smaller. -/
def createdDescOrder (a b : UrlRecord) : Prop :=
  b.created_at ≤ a.created_at

instance : DecidableRel createdDescOrder :=
  fun a b => inferInstanceAs (Decidable (b.created_at ≤ a.created_at))

instance : IsTotal UrlRecord createdDescOrder :=
  ⟨fun a b => Nat.le_total b.created_at a.created_at⟩

instance : IsTrans UrlRecord createdDescOrder :=
  ⟨fun _ _ _ hab hbc => Nat.le_trans hbc hab⟩

/-- Stable sort by `created_at` descending, the model of
`ORDER BY CREATED_AT DESC`: rows with equal timestamps keep their scan
(rowid) order; `CURRENT_TIMESTAMP` has one-second resolution, so equal
timestamps do occur for rapid consecutive inserts. -/
def sortByCreatedDesc (l : List UrlRecord) : List UrlRecord :=
  l.insertionSort createdDescOrder

/-- Execute one SQL statement: returns the new database state and the result
set (a list of text rows, in the order the cursor yields them). -/
def execStmt (db : DB) : Stmt → DB × List (List String)
  | .insertUrl u s now =>
      ({ rows := db.rows ++ [⟨db.nextId, u, s, now⟩], nextId := db.nextId + 1 }, [])
  | .selectWhere s =>
      (db, (db.rows.filter (fun r => r.short_url == s)).map (fun r => [r.url]))
  | .deleteWhere s =>
      ({ rows := db.rows.filter (fun r => r.short_url != s), nextId := db.nextId }, [])
  | .selectAllOrdered =>
      (db, (sortByCreatedDesc db.rows).map (fun r => [r.url, r.short_url]))

/-- models.insert_url: INSERT INTO URLS(URL, SHORT_URL) VALUES (?, ?). -/
def insert_url (db : DB) (url short_url : String) (now : Nat) : DB :=
  (execStmt db (.insertUrl url short_url now)).1

/-- models.get_url with its state effect:
SELECT URL FROM URLS WHERE SHORT_URL = ?, then `fetchone()`
(the head of the result set, a one-column row, or None). -/
def get_url_run (db : DB) (short_url : String) : Option (List String) × DB :=
  let out := execStmt db (.selectWhere short_url)
  (out.2.head?, out.1)

/-- models.get_url, result only. -/
def get_url (db : DB) (short_url : String) : Option (List String) :=
  (get_url_run db short_url).1

/-- models.deleteUrl: DELETE FROM URLS WHERE SHORT_URL = ?. -/
def deleteUrl (db : DB) (short_url : String) : DB :=
  (execStmt db (.deleteWhere short_url)).1

/-- One entry of the getAllUrls response body. -/
structure UrlOut where
  url : String
  short_url : String
deriving DecidableEq, Repr

/-- models.getAllUrls with its state effect:
SELECT URL, SHORT_URL FROM URLS ORDER BY CREATED_AT DESC, then `fetchall()`
mapped to objects with keys url and short_url. -/
def getAllUrls_run (db : DB) : List UrlOut × DB :=
  let out := execStmt db .selectAllOrdered
  (out.2.map (fun row => ⟨row.headD "", (row.drop 1).headD ""⟩), out.1)

/-- models.getAllUrls, result only. -/
def getAllUrls (db : DB) : List UrlOut :=
  (getAllUrls_run db).1

/-- string.ascii_letters ++ string.digits, the population passed to
random.choices in main.generateshortcode. -/
def alphabetList : List Char :=
  "abcdefghijklmnopqrstuvwxyzABCDEFGHIJKLMNOPQRSTUVWXYZ0123456789".toList

theorem alphabetList_length : alphabetList.length = 62 := rfl

/-- main.generateshortcode: random.choices picks, for each of the `length`
positions, one element of the 62-character population.  The random source is
modelled by `pick`, giving the index chosen for each position.  The Python
default for `length` is 6 (the api handler calls it with no argument). -/
def generateshortcode (length : Nat) (pick : Nat → Fin 62) : String :=
  ⟨(List.range length).map fun i =>
    alphabetList.get (Fin.cast alphabetList_length.symm (pick i))⟩

/-- api.shorten_url handler body: generate a code with the default length 6,
insert the (url, code) pair, return the code. -/
def shorten_url (db : DB) (url : String) (pick : Nat → Fin 62) (now : Nat) :
    String × DB :=
  let short_code := generateshortcode 6 pick
  (short_code, insert_url db url short_code now)

/-- Result of a request after FastAPI parameter validation. -/
inductive ApiResult (α : Type) where
  | ok (a : α)
  | validationError
deriving DecidableEq, Repr

/-- The POST /shortenURL endpoint including parameter validation: in
api.shorten_url the query parameter is declared `url: str = Query(...)`,
i.e. required, so FastAPI answers a request without it with a 422
validation error before the handler body runs; otherwise the handler runs. -/
def shorten_endpoint (db : DB) (urlParam : Option String)
    (pick : Nat → Fin 62) (now : Nat) : ApiResult String × DB :=
  match urlParam with
  | none => (.validationError, db)
  | some u =>
    let out := shorten_url db u pick now
    (.ok out.1, out.2)

/-- The operations that reach the store, as issued by the api handlers. -/
inductive Op where
  | insert (url short_url : String) (now : Nat)
  | delete (short_url : String)
  | lookup (short_url : String)
  | listAll
deriving DecidableEq, Repr

/-- State transition of one store operation. -/
def step (db : DB) : Op → DB
  | .insert u s now => insert_url db u s now
  | .delete s => deleteUrl db s
  | .lookup s => (get_url_run db s).2
  | .listAll => (getAllUrls_run db).2

/-- Run a sequence of store operations. -/
def run (db : DB) (ops : List Op) : DB :=
  ops.foldl step db

/-- Well-formedness of a database state: rowids strictly increase along the
table and stay below the AUTOINCREMENT counter.  `init_db` satisfies it and
(as proved below) every operation preserves it. -/
def wfDB (db : DB) : Prop :=
  (db.rows.map UrlRecord.id).Pairwise (· < ·) ∧ ∀ r ∈ db.rows, r.id < db.nextId

instance : DecidablePred wfDB := fun db => by
  unfold wfDB
  infer_instance

theorem wf_init_db : wfDB init_db := by
  constructor
  · simp [init_db]
  · simp [init_db]

/-! ## C2: code generation -/

/-- C2. `generateshortcode length` returns a string of exactly `length`
characters, each drawn from the 62-character case-sensitive alphabet
a-z, A-Z, 0-9 (which has 62 distinct characters). -/
theorem generateshortcode_length_alphabet (length : Nat) (pick : Nat → Fin 62) :
    (generateshortcode length pick).length = length ∧
    alphabetList.length = 62 ∧
    alphabetList.Nodup ∧
    (generateshortcode length pick).toList.all
      (fun c => alphabetList.contains c) = true := by
  refine ⟨?_, rfl, by decide, ?_⟩
  · simp [generateshortcode, String.length]
  · rw [List.all_eq_true]
    intro c hc
    have hc' : c ∈ (List.range length).map
        (fun i => alphabetList.get (Fin.cast alphabetList_length.symm (pick i))) := hc
    obtain ⟨i, _, rfl⟩ := List.mem_map.mp hc'
    have hmem : alphabetList.get (Fin.cast alphabetList_length.symm (pick i))
        ∈ alphabetList := List.get_mem _ _ _
    rw [List.contains_iff_exists_mem_beq]
    exact ⟨_, hmem, by simp⟩

/-! ## C10: reads are side-effect free -/

/-- C10. The read operations `get_url` and `getAllUrls` leave the database
state (rows, ids, urls, short codes, timestamps, counter) unchanged. -/
theorem reads_leave_store_unchanged (db : DB) (short_url : String) :
    (get_url_run db short_url).2 = db ∧ (getAllUrls_run db).2 = db :=
  ⟨rfl, rfl⟩

/-! ## C8: missing url parameter -/

/-- C8. A shorten request without the required `url` query parameter gets a
validation error and leaves the store exactly unchanged. -/
theorem shorten_missing_url_validation (db : DB) (pick : Nat → Fin 62) (now : Nat) :
    shorten_endpoint db none pick now = (ApiResult.validationError, db) :=
  rfl

/-! ## C5: delete removes all matching records -/

/-- C5. `deleteUrl s` removes every record whose short code is `s` (so a
subsequent lookup of `s` returns not-found), keeps every other record, and
removing zero records is not an error: on a state with no match it is the
identity (and the operation is total, so it never fails). -/
theorem deleteUrl_removes_all_matching (db : DB) (s : String) :
    (deleteUrl db s).rows.countP (fun r => r.short_url == s) = 0 ∧
    (deleteUrl db s).rows.countP (fun r => r.short_url != s)
      = db.rows.countP (fun r => r.short_url != s) ∧
    get_url (deleteUrl db s) s = none ∧
    (db.rows.countP (fun r => r.short_url == s) = 0 → deleteUrl db s = db) := by
  refine ⟨?_, ?_, ?_, ?_⟩
  · rw [List.countP_eq_zero]
    intro a ha
    have := (List.mem_filter.mp ha).2
    simp only [bne_iff_ne, ne_eq] at this
    simp [this]
  · show ((db.rows.filter _).countP _) = _
    rw [List.countP_filter]
    simp [Bool.and_self]
  · have h : (db.rows.filter (fun r => r.short_url != s)).filter
        (fun r => r.short_url == s) = [] := by
      rw [List.filter_filter]
      apply List.filter_eq_nil_iff.mpr
      intro a _
      cases hx : a.short_url == s <;> simp [bne, hx]
    simp [get_url, get_url_run, execStmt, deleteUrl, h]
  · intro h0
    have hall : ∀ a ∈ db.rows, (a.short_url != s) = true := by
      intro a ha
      have := List.countP_eq_zero.mp h0 a ha
      simpa [bne_iff_ne] using this
    have hfe : db.rows.filter (fun r => r.short_url != s) = db.rows :=
      List.filter_eq_self.mpr hall
    cases db with
    | mk rows nextId =>
      simp only [deleteUrl, execStmt] at hfe ⊢
      simp [hfe]

/-- C5 witness: a concrete database with one matching record. -/
def wdb1 : DB := insert_url init_db "https://www.example.com" "abc123" 0

theorem deleteUrl_removes_all_matching_witness :
    (deleteUrl wdb1 "abc123").rows.countP (fun r => r.short_url == "abc123") = 0 ∧
    (deleteUrl wdb1 "abc123").rows.countP (fun r => r.short_url != "abc123")
      = wdb1.rows.countP (fun r => r.short_url != "abc123") ∧
    get_url (deleteUrl wdb1 "abc123") "abc123" = none ∧
    (wdb1.rows.countP (fun r => r.short_url == "abc123") = 0 →
      deleteUrl wdb1 "abc123" = wdb1) :=
  deleteUrl_removes_all_matching wdb1 "abc123"

/-! ## C6: found and not-found are distinguishable -/

/-- C6. Looking up a short code returns `some` of a single-element array
holding the url of a stored matching record when at least one record
matches, and `none` when no record matches, so hit and miss are always
distinguishable. -/
theorem get_url_hit_or_miss (db : DB) (s : String) :
    (db.rows.countP (fun r => r.short_url == s) = 0 → get_url db s = none) ∧
    (db.rows.countP (fun r => r.short_url == s) ≠ 0 →
      get_url db s
        = some [((db.rows.filter (fun r => r.short_url == s)).headD default).url] ∧
      (db.rows.filter (fun r => r.short_url == s)).headD default ∈ db.rows ∧
      ((db.rows.filter (fun r => r.short_url == s)).headD default).short_url = s) := by
  constructor
  · intro h0
    have hf : db.rows.filter (fun r => r.short_url == s) = [] := by
      rw [List.countP_eq_length_filter] at h0
      exact List.length_eq_zero.mp h0
    simp [get_url, get_url_run, execStmt, hf]
  · intro h0
    rcases hx : db.rows.filter (fun r => r.short_url == s) with _ | ⟨x, t⟩
    · rw [List.countP_eq_length_filter, hx] at h0
      exact absurd rfl h0
    · have hxmem : x ∈ db.rows.filter (fun r => r.short_url == s) := by
        rw [hx]; exact List.mem_cons_self _ _
      have hx' := List.mem_filter.mp hxmem
      refine ⟨?_, ?_, ?_⟩
      · simp [get_url, get_url_run, execStmt, hx]
      · simpa [hx] using hx'.1
      · have : x.short_url = s := by simpa using hx'.2
        simp [hx, this]

theorem get_url_hit_or_miss_witness :
    (wdb1.rows.countP (fun r => r.short_url == "abc123") ≠ 0) ∧
    (get_url wdb1 "abc123"
        = some [((wdb1.rows.filter (fun r => r.short_url == "abc123")).headD default).url] ∧
      (wdb1.rows.filter (fun r => r.short_url == "abc123")).headD default ∈ wdb1.rows ∧
      ((wdb1.rows.filter (fun r => r.short_url == "abc123")).headD default).short_url
        = "abc123") :=
  ⟨by decide, (get_url_hit_or_miss wdb1 "abc123").2 (by decide)⟩

/-! ## C7: insert appends a fresh row, duplicates allowed -/

/-- In a well-formed state, no stored record already holds the id the next
insert will assign. -/
theorem countP_id_fresh (db : DB) (h : wfDB db) :
    db.rows.countP (fun r => r.id == db.nextId) = 0 := by
  rw [List.countP_eq_zero]
  intro a ha
  have := h.2 a ha
  simp only [beq_iff_eq]
  omega

/-- Inserting preserves well-formedness. -/
theorem wf_insert_url (db : DB) (u s : String) (now : Nat) (h : wfDB db) :
    wfDB (insert_url db u s now) := by
  constructor
  · show ((db.rows ++ [UrlRecord.mk db.nextId u s now]).map UrlRecord.id).Pairwise (· < ·)
    rw [List.map_append]
    apply List.pairwise_append.mpr
    refine ⟨h.1, List.pairwise_singleton _ _, ?_⟩
    intro x hx y hy
    simp only [List.map_cons, List.map_nil, List.mem_singleton] at hy
    subst hy
    obtain ⟨r, hr, rfl⟩ := List.mem_map.mp hx
    exact h.2 r hr
  · intro r hr
    have hr' : r ∈ db.rows ++ [UrlRecord.mk db.nextId u s now] := hr
    show r.id < db.nextId + 1
    rcases List.mem_append.mp hr' with h1 | h2
    · exact Nat.lt_succ_of_lt (h.2 r h1)
    · rw [List.mem_singleton] at h2
      subst h2
      exact Nat.lt_succ_self _

/-- C7. `insert_url` appends a new record with a fresh id (held by no
existing record) and the current timestamp, for every short code — also one
that duplicates an existing record's code, since no uniqueness constraint
exists; existing rows are untouched (the new state is the old rows plus one
appended row), and well-formedness is preserved. -/
theorem insert_url_appends_fresh (db : DB) (u s : String) (now : Nat)
    (h : wfDB db) :
    (insert_url db u s now).rows = db.rows ++ [⟨db.nextId, u, s, now⟩] ∧
    (insert_url db u s now).nextId = db.nextId + 1 ∧
    db.rows.countP (fun r => r.id == db.nextId) = 0 ∧
    wfDB (insert_url db u s now) :=
  ⟨rfl, rfl, countP_id_fresh db h, wf_insert_url db u s now h⟩

theorem insert_url_appends_fresh_witness :
    wfDB wdb1 ∧
    ((insert_url wdb1 "https://other.example" "abc123" 7).rows
        = wdb1.rows ++ [⟨wdb1.nextId, "https://other.example", "abc123", 7⟩] ∧
      (insert_url wdb1 "https://other.example" "abc123" 7).nextId = wdb1.nextId + 1 ∧
      wdb1.rows.countP (fun r => r.id == wdb1.nextId) = 0 ∧
      wfDB (insert_url wdb1 "https://other.example" "abc123" 7)) :=
  ⟨by decide, insert_url_appends_fresh wdb1 "https://other.example" "abc123" 7 (by decide)⟩

/-! ## C1: round-trip -/

/-- A randomness source that always picks index 0, so the generated code is
"aaaaaa". -/
def pick0 : Nat → Fin 62 := fun _ => 0

/-- A store that already holds a record whose short code is "aaaaaa". -/
def c1db : DB := { rows := [⟨1, "https://old.example", "aaaaaa", 0⟩], nextId := 2 }

/-- C1 counterexample. When the freshly generated code collides with an
existing record's code, resolving the code after shortening returns the OLD
record's url (the lookup scans in rowid order), not the just-shortened url:
the round-trip claim fails as stated for every store state. -/
theorem roundtrip_collision_cex :
    (shorten_url c1db "https://new.example" pick0 1).1 = "aaaaaa" ∧
    get_url (shorten_url c1db "https://new.example" pick0 1).2
        (shorten_url c1db "https://new.example" pick0 1).1
      = some ["https://old.example"] ∧
    (some ["https://old.example"] : Option (List String))
      ≠ some ["https://new.example"] := by
  exact ⟨by decide, by decide, by decide⟩

/-- C1 amended. If the generated code does not collide with any record
already in the store (in particular from an empty store), then shortening
`u` and resolving the returned code yields exactly the string `u`, with no
re-encoding. -/
theorem shorten_roundtrip_no_collision (db : DB) (u : String)
    (pick : Nat → Fin 62) (now : Nat)
    (hfresh : db.rows.countP (fun r => r.short_url == generateshortcode 6 pick) = 0) :
    get_url (shorten_url db u pick now).2 (shorten_url db u pick now).1
      = some [u] := by
  have hf : db.rows.filter (fun r => r.short_url == generateshortcode 6 pick) = [] := by
    rw [List.countP_eq_length_filter] at hfresh
    exact List.length_eq_zero.mp hfresh
  simp [shorten_url, insert_url, execStmt, get_url, get_url_run,
    List.filter_append, hf]

theorem shorten_roundtrip_no_collision_witness :
    (init_db.rows.countP (fun r => r.short_url == generateshortcode 6 pick0) = 0) ∧
    get_url (shorten_url init_db "https://example.com/ü?q=1&r=ü" pick0 0).2
        (shorten_url init_db "https://example.com/ü?q=1&r=ü" pick0 0).1
      = some ["https://example.com/ü?q=1&r=ü"] :=
  ⟨by decide,
    shorten_roundtrip_no_collision init_db "https://example.com/ü?q=1&r=ü" pick0 0
      (by decide)⟩

/-! ## C4: lookup among duplicate short codes -/

/-- The failing input of the repository's own test
test_models.py, test_duplicate_short_code: two records share the short code
"duplicate"; the test asserts the lookup returns the second
(most recently inserted) url. -/
def c4db : DB :=
  insert_url (insert_url init_db "https://www.first.com" "duplicate" 0)
    "https://www.second.com" "duplicate" 0

/-- C4. The lookup is `SELECT URL FROM URLS WHERE SHORT_URL = ?` with no
ORDER BY followed by fetchone, which yields the matching row with the
smallest rowid: the FIRST inserted url, not the most recently inserted one
that the claim (and the repository's own test) states. -/
theorem get_url_duplicate_returns_first_inserted :
    get_url c4db "duplicate" = some ["https://www.first.com"] ∧
    (some ["https://www.first.com"] : Option (List String))
      ≠ some ["https://www.second.com"] := by
  exact ⟨by decide, by decide⟩

/-! ## C3: listing order -/

/-- Three rapid inserts that all land in the same `CURRENT_TIMESTAMP`
second. -/
def c3db : DB :=
  insert_url (insert_url (insert_url init_db "https://u1.example" "c1" 0)
    "https://u2.example" "c2" 0) "https://u3.example" "c3" 0

/-- C3 counterexample. When the three inserts share one `CURRENT_TIMESTAMP`
value (one-second resolution, so rapid consecutive inserts tie),
`ORDER BY CREATED_AT DESC` leaves the tied rows in scan order and the
listing comes back oldest first, not `[u3, u2, u1]`. -/
theorem getAllUrls_tied_timestamps_cex :
    getAllUrls c3db
      = [UrlOut.mk "https://u1.example" "c1", UrlOut.mk "https://u2.example" "c2",
         UrlOut.mk "https://u3.example" "c3"] ∧
    getAllUrls c3db
      ≠ [UrlOut.mk "https://u3.example" "c3", UrlOut.mk "https://u2.example" "c2",
         UrlOut.mk "https://u1.example" "c1"] :=
  ⟨by decide, by decide⟩

/-- A pair of entries at strictly increasing positions is a subsequence. -/
theorem sublist_pair_of_getElem? {α : Type _} :
    ∀ {l : List α} {i j : Nat} {a b : α},
      i < j → l[i]? = some a → l[j]? = some b → [a, b].Sublist l
  | [], _, _, _, _, _, ha, _ => by simp at ha
  | x :: xs, 0, j, a, b, hij, ha, hb => by
    obtain ⟨j', rfl⟩ : ∃ j', j = j' + 1 := ⟨j - 1, by omega⟩
    rw [List.getElem?_cons_zero] at ha
    rw [List.getElem?_cons_succ] at hb
    cases ha
    exact List.cons_sublist_cons.mpr
      (List.singleton_sublist.mpr (List.mem_iff_getElem?.mpr ⟨j', hb⟩))
  | x :: xs, i + 1, j, a, b, hij, ha, hb => by
    obtain ⟨j', rfl⟩ : ∃ j', j = j' + 1 := ⟨j - 1, by omega⟩
    rw [List.getElem?_cons_succ] at ha hb
    exact List.Sublist.cons x (sublist_pair_of_getElem? (by omega) ha hb)

/-- A triple of entries at strictly increasing positions is a
subsequence. -/
theorem sublist_triple_of_getElem? {α : Type _} :
    ∀ {l : List α} {i j k : Nat} {a b c : α},
      i < j → j < k → l[i]? = some a → l[j]? = some b → l[k]? = some c →
      [a, b, c].Sublist l
  | [], _, _, _, _, _, _, _, _, ha, _, _ => by simp at ha
  | x :: xs, 0, j, k, a, b, c, hij, hjk, ha, hb, hc => by
    obtain ⟨j', rfl⟩ : ∃ j', j = j' + 1 := ⟨j - 1, by omega⟩
    obtain ⟨k', rfl⟩ : ∃ k', k = k' + 1 := ⟨k - 1, by omega⟩
    rw [List.getElem?_cons_zero] at ha
    rw [List.getElem?_cons_succ] at hb hc
    cases ha
    exact List.cons_sublist_cons.mpr (sublist_pair_of_getElem? (by omega) hb hc)
  | x :: xs, i + 1, j, k, a, b, c, hij, hjk, ha, hb, hc => by
    obtain ⟨j', rfl⟩ : ∃ j', j = j' + 1 := ⟨j - 1, by omega⟩
    obtain ⟨k', rfl⟩ : ∃ k', k = k' + 1 := ⟨k - 1, by omega⟩
    rw [List.getElem?_cons_succ] at ha hb hc
    exact List.Sublist.cons x
      (sublist_triple_of_getElem? (by omega) (by omega) ha hb hc)

/-- In a list sorted by `created_at` descending, an entry with a strictly
larger timestamp sits at a strictly smaller position. -/
theorem createdDesc_index_lt {L : List UrlRecord}
    (hs : L.Pairwise createdDescOrder) {p q : Nat} {x y : UrlRecord}
    (hp : L[p]? = some x) (hq : L[q]? = some y)
    (hxy : y.created_at < x.created_at) : p < q := by
  rcases Nat.lt_trichotomy p q with h | h | h
  · exact h
  · exfalso
    subst h
    rw [hp] at hq
    cases hq
    omega
  · exfalso
    obtain ⟨hplt, hpe⟩ := List.getElem?_eq_some_iff.mp hp
    obtain ⟨hqlt, hqe⟩ := List.getElem?_eq_some_iff.mp hq
    have := List.pairwise_iff_get.mp hs ⟨q, hqlt⟩ ⟨p, hplt⟩ h
    rw [List.get_eq_getElem, List.get_eq_getElem] at this
    rw [hpe, hqe] at this
    exact absurd this (by unfold createdDescOrder; omega)

/-- The rows after three consecutive inserts. -/
theorem insert3_rows (db : DB) (u1 c1 u2 c2 u3 c3 : String) (t1 t2 t3 : Nat) :
    (insert_url (insert_url (insert_url db u1 c1 t1) u2 c2 t2) u3 c3 t3).rows
      = db.rows ++ [UrlRecord.mk db.nextId u1 c1 t1,
          UrlRecord.mk (db.nextId + 1) u2 c2 t2,
          UrlRecord.mk (db.nextId + 2) u3 c3 t3] := by
  simp [insert_url, execStmt]

/-- `getAllUrls` projects the descending-sorted rows to (url, code). -/
theorem getAllUrls_eq_map (db : DB) :
    getAllUrls db
      = (sortByCreatedDesc db.rows).map (fun r => UrlOut.mk r.url r.short_url) := by
  simp only [getAllUrls, getAllUrls_run, execStmt, List.map_map]
  rfl

/-- C3 amended. If the three inserted records receive strictly increasing
`created_at` timestamps, the listing contains the three inserted urls in
the order `[u3, u2, u1]` (newest first), as a subsequence of the full
newest-first listing. -/
theorem getAllUrls_newest_first_strict (db : DB) (u1 c1 : String) (t1 : Nat)
    (u2 c2 : String) (t2 : Nat) (u3 c3 : String) (t3 : Nat)
    (h12 : t1 < t2) (h23 : t2 < t3) :
    [UrlOut.mk u3 c3, UrlOut.mk u2 c2, UrlOut.mk u1 c1].Sublist
      (getAllUrls (insert_url (insert_url (insert_url db u1 c1 t1) u2 c2 t2)
        u3 c3 t3)) := by
  have hrows := insert3_rows db u1 c1 u2 c2 u3 c3 t1 t2 t3
  have hperm := List.perm_insertionSort createdDescOrder
    (insert_url (insert_url (insert_url db u1 c1 t1) u2 c2 t2) u3 c3 t3).rows
  have hsort : (sortByCreatedDesc
      (insert_url (insert_url (insert_url db u1 c1 t1) u2 c2 t2) u3 c3 t3).rows).Pairwise
      createdDescOrder :=
    List.sorted_insertionSort createdDescOrder _
  have hm1 : UrlRecord.mk db.nextId u1 c1 t1 ∈ sortByCreatedDesc
      (insert_url (insert_url (insert_url db u1 c1 t1) u2 c2 t2) u3 c3 t3).rows := by
    rw [sortByCreatedDesc, hperm.mem_iff, hrows]; simp
  have hm2 : UrlRecord.mk (db.nextId + 1) u2 c2 t2 ∈ sortByCreatedDesc
      (insert_url (insert_url (insert_url db u1 c1 t1) u2 c2 t2) u3 c3 t3).rows := by
    rw [sortByCreatedDesc, hperm.mem_iff, hrows]; simp
  have hm3 : UrlRecord.mk (db.nextId + 2) u3 c3 t3 ∈ sortByCreatedDesc
      (insert_url (insert_url (insert_url db u1 c1 t1) u2 c2 t2) u3 c3 t3).rows := by
    rw [sortByCreatedDesc, hperm.mem_iff, hrows]; simp
  obtain ⟨i1, hi1⟩ := List.mem_iff_getElem?.mp hm1
  obtain ⟨i2, hi2⟩ := List.mem_iff_getElem?.mp hm2
  obtain ⟨i3, hi3⟩ := List.mem_iff_getElem?.mp hm3
  have h32 : i3 < i2 := createdDesc_index_lt hsort hi3 hi2 h23
  have h21 : i2 < i1 := createdDesc_index_lt hsort hi2 hi1 h12
  have hsub := sublist_triple_of_getElem? h32 h21 hi3 hi2 hi1
  have hmap := hsub.map (fun r => UrlOut.mk r.url r.short_url)
  rw [getAllUrls_eq_map]
  simpa using hmap

theorem getAllUrls_newest_first_strict_witness :
    (0 : Nat) < 1 ∧ (1 : Nat) < 2 ∧
    [UrlOut.mk "https://u3.example" "c3", UrlOut.mk "https://u2.example" "c2",
      UrlOut.mk "https://u1.example" "c1"].Sublist
      (getAllUrls (insert_url (insert_url
        (insert_url init_db "https://u1.example" "c1" 0)
          "https://u2.example" "c2" 1) "https://u3.example" "c3" 2)) :=
  ⟨by decide, by decide,
    getAllUrls_newest_first_strict init_db "https://u1.example" "c1" 0
      "https://u2.example" "c2" 1 "https://u3.example" "c3" 2
      (by decide) (by decide)⟩

/-! ## C9: ids are assigned once and never reused -/

/-- The AUTOINCREMENT counter never decreases. -/
theorem nextId_step (db : DB) (op : Op) : db.nextId ≤ (step db op).nextId := by
  cases op with
  | insert u s now => exact Nat.le_succ _
  | delete s => exact Nat.le_refl _
  | lookup s => exact Nat.le_refl _
  | listAll => exact Nat.le_refl _

/-- Deletion preserves well-formedness. -/
theorem wf_deleteUrl (db : DB) (s : String) (h : wfDB db) :
    wfDB (deleteUrl db s) := by
  constructor
  · have hsub : (deleteUrl db s).rows.Sublist db.rows := List.filter_sublist _
    exact List.Pairwise.sublist (hsub.map UrlRecord.id) h.1
  · intro r hr
    exact h.2 r (List.mem_filter.mp hr).1

/-- Every store operation preserves well-formedness. -/
theorem wf_step (db : DB) (op : Op) (h : wfDB db) : wfDB (step db op) := by
  cases op with
  | insert u s now => exact wf_insert_url db u s now h
  | delete s => exact wf_deleteUrl db s h
  | lookup s => exact h
  | listAll => exact h

/-- A record of the post-state of one operation whose id predates the
operation is a record of the pre-state, unchanged. -/
theorem old_mem_step (db : DB) (op : Op) (r : UrlRecord)
    (hr : r ∈ (step db op).rows) (hid : r.id < db.nextId) : r ∈ db.rows := by
  cases op with
  | insert u s now =>
    have hr' : r ∈ db.rows ++ [UrlRecord.mk db.nextId u s now] := hr
    rcases List.mem_append.mp hr' with h1 | h2
    · exact h1
    · rw [List.mem_singleton] at h2
      subst h2
      exact absurd hid (Nat.lt_irrefl _)
  | delete s => exact (List.mem_filter.mp hr).1
  | lookup s => exact hr
  | listAll => exact hr

/-- Running any operation sequence from a well-formed state keeps the state
well-formed, never decreases the id counter, and every surviving record
whose id predates the run is one of the original records, unchanged. -/
theorem run_spec (ops : List Op) : ∀ db : DB, wfDB db →
    wfDB (run db ops) ∧ db.nextId ≤ (run db ops).nextId ∧
    ∀ r ∈ (run db ops).rows, r.id < db.nextId → r ∈ db.rows := by
  induction ops with
  | nil => exact fun db h => ⟨h, Nat.le_refl _, fun r hr _ => hr⟩
  | cons op ops ih =>
    intro db h
    obtain ⟨hwf, hle, hmem⟩ := ih (step db op) (wf_step db op h)
    refine ⟨hwf, Nat.le_trans (nextId_step db op) hle, ?_⟩
    intro r hr hid
    exact old_mem_step db op r
      (hmem r hr (Nat.lt_of_lt_of_le hid (nextId_step db op))) hid

/-- C9. Over any sequence of store operations from a well-formed state: ids
stay pairwise distinct (well-formedness, whose first component is strict
ordering of the ids), the id counter never decreases, and no record of the
final state carries an id below the initial counter unless it IS one of the
initial records, unchanged — so an id, once assigned, is never modified and
never reassigned to a later record, even after the original is deleted. -/
theorem ids_assigned_once_never_reused (db : DB) (h : wfDB db) (ops : List Op) :
    wfDB (run db ops) ∧
    db.nextId ≤ (run db ops).nextId ∧
    (run db ops).rows.countP
      (fun r => decide (r.id < db.nextId) && !(decide (r ∈ db.rows))) = 0 := by
  obtain ⟨hwf, hle, hmem⟩ := run_spec ops db h
  refine ⟨hwf, hle, ?_⟩
  rw [List.countP_eq_zero]
  intro a ha
  simp only [Bool.and_eq_true, decide_eq_true_eq, Bool.not_eq_true',
    decide_eq_false_iff_not, not_and, not_not]
  exact fun hlt => hmem a ha hlt

theorem ids_assigned_once_never_reused_witness :
    wfDB wdb1 ∧
    (wfDB (run wdb1 [Op.insert "https://a.example" "qqq111" 3,
        Op.delete "abc123", Op.lookup "qqq111", Op.listAll]) ∧
      wdb1.nextId ≤ (run wdb1 [Op.insert "https://a.example" "qqq111" 3,
        Op.delete "abc123", Op.lookup "qqq111", Op.listAll]).nextId ∧
      (run wdb1 [Op.insert "https://a.example" "qqq111" 3,
        Op.delete "abc123", Op.lookup "qqq111", Op.listAll]).rows.countP
        (fun r => decide (r.id < wdb1.nextId) && !(decide (r ∈ wdb1.rows))) = 0) :=
  ⟨by decide,
    ids_assigned_once_never_reused wdb1 (by decide)
      [Op.insert "https://a.example" "qqq111" 3, Op.delete "abc123",
        Op.lookup "qqq111", Op.listAll]⟩

end UrlShortener
